import Mathlib

/-!
Verification of the two instructional notebooks in this repository:
a bidirectional LSTM over packed variable-length sequences, and
equal-length ("same") convolution via symmetric zero padding.

Library operators (pack_padded_sequence, nn.LSTM, nn.Conv2d, nn.ZeroPad2d,
nn.Embedding) are not part of the repository source; their semantics are
modelled from the specification, as noted on each definition.  The
notebook-level glue (vocabulary construction, batch padding, sorting and
order recovery, pad-size computation) is embedded directly from the source.
-/

namespace PytorchNotes

/-! ## Sorting with indices (torch.sort) -/

/-- Modelled from the spec: `torch.sort(lengths, descending=True)` sorts
values descending and also returns the permutation of original indices.
We sort the enumerated list (index, value) by descending value. -/
def sortPairsDesc (l : List (Nat × Nat)) : List (Nat × Nat) :=
  List.insertionSort (fun a b => b.2 ≤ a.2) l

/-- `torch.sort(lengths, descending=True)`: returns (sorted values, indices). -/
def torchSortDesc (lengths : List Nat) : List Nat × List Nat :=
  ((sortPairsDesc lengths.enum).map (fun p => p.2),
   (sortPairsDesc lengths.enum).map (fun p => p.1))

/-- Modelled from the spec: `torch.sort(indices)` ascending on a permutation
returns as its index component the inverse permutation (argsort). -/
def argsortAsc (p : List Nat) : List Nat :=
  (List.insertionSort (fun a b => a.2 ≤ b.2) p.enum).map (fun q => q.1)

/-- `tensor[indices]`: reorder the rows of `xs` according to `idx`. -/
def gather {α : Type} (xs : List α) (idx : List Nat) (d : α) : List α :=
  idx.map (fun i => xs.getD i d)

/-! ## Packing (pack_padded_sequence / pad_packed_sequence) -/

/-- Modelled from the spec: the active-batch-size vector of
`pack_padded_sequence`.  For each timestep `t < maxLen` it walks the
descending-sorted length vector and counts the leading rows still alive
(true length greater than `t`). -/
def batchSizes (lengths : List Nat) (maxLen : Nat) : List Nat :=
  (List.range maxLen).map (fun t => (lengths.takeWhile (fun l => t < l)).length)

/-- Modelled from the spec: the packed data of `pack_padded_sequence`,
grouped by timestep.  Group `t` holds, in sorted row order, the entry at
time `t` of every row whose true length exceeds `t` (rows must be sorted
by descending length, so the alive rows form a leading segment). -/
def packGroups {α : Type} (rows : List (List α)) (lengths : List Nat)
    (maxLen : Nat) (d : α) : List (List α) :=
  (List.range maxLen).map (fun t =>
    ((rows.zip lengths).takeWhile (fun p => t < p.2)).map (fun p => p.1.getD t d))

/-- Modelled from the spec: `pad_packed_sequence` rebuilds the padded batch
(`n` rows, each padded to `maxLen`) from the timestep groups; entries past a
row's true length are filled with the pad value `d`. -/
def unpackBatch {α : Type} (groups : List (List α)) (n maxLen : Nat)
    (d : α) : List (List α) :=
  (List.range n).map (fun i =>
    (List.range maxLen).map (fun t => (groups.getD t []).getD i d))

/-! ## Vector and matrix helpers over ℚ -/

/-- Dot product of two vectors. -/
def dot (v w : List ℚ) : ℚ := (List.zipWith (fun a b => a * b) v w).sum

/-- Matrix–vector product (one output entry per matrix row). -/
def matvec (m : List (List ℚ)) (v : List ℚ) : List ℚ := m.map (fun row => dot row v)

/-- Componentwise vector addition. -/
def vadd (v w : List ℚ) : List ℚ := List.zipWith (fun a b => a + b) v w

/-- Componentwise (Hadamard) vector product. -/
def vmul (v w : List ℚ) : List ℚ := List.zipWith (fun a b => a * b) v w

/-! ## Embedding layer and batch construction -/

/-- Modelled from the spec: `nn.Embedding(voc, dim, padding_idx=0)` holds an
arbitrary weight table except that the row of the padding index 0 is the
all-zero vector. -/
def mkEmbedding (dim : Nat) (w : Nat → List ℚ) : Nat → List ℚ :=
  fun i => if i = 0 then List.replicate dim 0 else w i

/-- Embedding lookup applied over a row of token indices. -/
def embedRow (emb : Nat → List ℚ) (row : List Nat) : List (List ℚ) := row.map emb

/-- `inputs = np.zeros(...); inputs[i, :lengths[i]] = ids`: a row of token
indices right-padded with the sentinel 0 up to `maxLen`. -/
def padRow (ids : List Nat) (maxLen : Nat) : List Nat :=
  ids ++ List.replicate (maxLen - ids.length) 0

/-! ## Vocabulary construction (the alphabet loop of the BLSTM notebook) -/

/-- One step of the alphabet loop: a word not yet present is appended with
the next index (indices start at 1; `a.length + 1` is exactly the running
counter of the source loop). -/
def addWord (a : List (String × Nat)) (w : String) : List (String × Nat) :=
  if (a.lookup w).isSome then a else a ++ [(w, a.length + 1)]

/-- The alphabet built by the nested loop over sentences and words. -/
def buildAlphabet (sentences : List (List String)) : List (String × Nat) :=
  sentences.foldl (fun a s => s.foldl addWord a) []

/-- `alphabet[w]`: a missing key yields `none` (Python raises KeyError);
there is no fallback index. -/
def lookupToken (a : List (String × Nat)) (w : String) : Option Nat := a.lookup w

/-! ## Equal-length convolution notebook -/

/-- `pad_size = (window_size - 1) // 2` from the convolution notebook. -/
def pad_size (window_size : Nat) : Nat := (window_size - 1) / 2

/-- Modelled from the spec: `nn.ZeroPad2d((l, r, t, b))` pads each row with
`l` zeros on the left and `r` on the right, and adds `t` zero rows on top
and `b` on the bottom; `dim` is the row width of the input. -/
def zeroPad2dOp (l r t b dim : Nat) (m : List (List ℚ)) : List (List ℚ) :=
  List.replicate t (List.replicate (l + dim + r) 0)
    ++ m.map (fun row => List.replicate l 0 ++ row ++ List.replicate r 0)
    ++ List.replicate b (List.replicate (l + dim + r) 0)

/-- `pad_op = nn.ZeroPad2d((0, 0, pad_size, pad_size))` applied to one
batch element (sequence axis × embedding axis). -/
def pad_op (window_size dim : Nat) (m : List (List ℚ)) : List (List ℚ) :=
  zeroPad2dOp 0 0 (pad_size window_size) (pad_size window_size) dim m

/-- Modelled from the spec: a single output channel of
`nn.Conv2d(kernel_size=(W, dim))` with stride 1 and no padding ("narrow"
convolution): one output per window position, `L - W + 1` positions in all. -/
def conv2dValid (kernel : List (List ℚ)) (bias : ℚ) (W : Nat)
    (m : List (List ℚ)) : List ℚ :=
  (List.range (m.length + 1 - W)).map (fun t =>
    bias + ((((m.drop t).take W).zip kernel).map (fun p => dot p.1 p.2)).sum)

/-! ## LSTM (modelled from the spec / standard framework semantics) -/

/-- The four parameter tensors of one LSTM direction, gate order (i|f|g|o)
as in the framework: `weight_ih`/`weight_hh` have `4*H` rows. -/
structure LSTMWeights where
  weight_ih : List (List ℚ)
  weight_hh : List (List ℚ)
  bias_ih : List ℚ
  bias_hh : List ℚ

/-- The parameter tensors have their documented shapes (`4*H` rows each). -/
def wfWeights (w : LSTMWeights) (H : Nat) : Prop :=
  w.weight_ih.length = 4 * H ∧ w.weight_hh.length = 4 * H ∧
    w.bias_ih.length = 4 * H ∧ w.bias_hh.length = 4 * H

instance (w : LSTMWeights) (H : Nat) : Decidable (wfWeights w H) := by
  unfold wfWeights; infer_instance

/-- Modelled from the spec: one LSTM cell step.  `sg` and `th` stand for the
sigmoid and tanh nonlinearities (kept abstract: the framework computes them
in floating point; every algebraic property proved here holds for any choice).
Gate preactivations are `W_ih x + b_ih + W_hh h + b_hh`, split into the
four gates i, f, g, o of `H` rows each. -/
def lstmCell (sg th : ℚ → ℚ) (w : LSTMWeights) (H : Nat)
    (x h c : List ℚ) : List ℚ × List ℚ :=
  let z := vadd (vadd (matvec w.weight_ih x) w.bias_ih)
    (vadd (matvec w.weight_hh h) w.bias_hh)
  let i := (z.take H).map sg
  let f := ((z.drop H).take H).map sg
  let g := ((z.drop (2 * H)).take H).map th
  let o := ((z.drop (3 * H)).take H).map sg
  let c2 := vadd (vmul f c) (vmul i g)
  let h2 := vmul o (c2.map th)
  (h2, c2)

/-- Run the cell over a sequence of inputs from an initial (h, c) state. -/
def lstmRun (sg th : ℚ → ℚ) (w : LSTMWeights) (H : Nat)
    (xs : List (List ℚ)) (h c : List ℚ) : List ℚ × List ℚ :=
  xs.foldl (fun s x => lstmCell sg th w H x s.1 s.2) (h, c)

/-- The framework's default all-zero initial hidden/cell state. -/
def zeroState (H : Nat) : List ℚ := List.replicate H 0

/-- Modelled from the spec: over a packed sequence, the forward direction of
the bidirectional LSTM consumes exactly the `len` real timesteps of a row in
order; its final hidden state is the state after the last real timestep. -/
def packedFwdFinal (sg th : ℚ → ℚ) (w : LSTMWeights) (H : Nat)
    (xs : List (List ℚ)) (len : Nat) : List ℚ :=
  (lstmRun sg th w H (xs.take len) (zeroState H) (zeroState H)).1

/-- Modelled from the spec: the backward direction consumes the same `len`
real timesteps in reverse temporal order, never touching padding positions;
its final hidden state is the state after consuming the row from its end to
its start. -/
def packedBwdFinal (sg th : ℚ → ℚ) (w : LSTMWeights) (H : Nat)
    (xs : List (List ℚ)) (len : Nat) : List ℚ :=
  (lstmRun sg th w H ((xs.take len).reverse) (zeroState H) (zeroState H)).1

/-- Modelled from the spec: the per-timestep output row of the bidirectional
LSTM after `pad_packed_sequence`: at each real timestep `t < len` the
concatenation of the forward state after timesteps `0..t` and the backward
state after timesteps `len-1..t`; positions past `len` are zero-padded up to
`maxLen`. -/
def packedOutputRow (sg th : ℚ → ℚ) (wf wb : LSTMWeights) (H : Nat)
    (xs : List (List ℚ)) (len maxLen : Nat) : List (List ℚ) :=
  (List.range len).map (fun t =>
    (lstmRun sg th wf H (xs.take (t + 1)) (zeroState H) (zeroState H)).1
      ++ (lstmRun sg th wb H (((xs.take len).drop t).reverse)
            (zeroState H) (zeroState H)).1)
    ++ List.replicate (maxLen - len) (List.replicate (2 * H) 0)

/-! ## Shared helper lemmas -/

lemma getD_map_lt {α β : Type} (f : α → β) (l : List α) (j : Nat)
    (h : j < l.length) (d : β) : (l.map f).getD j d = f l[j] := by
  simp [List.getD_eq_getElem?_getD, List.getElem?_map, List.getElem?_eq_getElem h]

lemma getD_replicate_zero (n i : Nat) (d : ℚ) :
    (List.replicate n (0 : ℚ)).getD i d = if i < n then 0 else d := by
  rcases Nat.lt_or_ge i n with h | h
  · simp [List.getD_eq_getElem?_getD, List.getElem?_replicate, h]
  · have : (List.replicate n (0 : ℚ)).length ≤ i := by simpa using h
    simp [List.getD_eq_getElem?_getD, List.getElem?_eq_none this, Nat.not_lt.mpr h]

lemma length_lstm_state (sg th : ℚ → ℚ) (w : LSTMWeights) (H : Nat)
    (x h c : List ℚ) (hw : wfWeights w H) (hc : c.length = H) :
    (lstmCell sg th w H x h c).1.length = H ∧
      (lstmCell sg th w H x h c).2.length = H := by
  obtain ⟨h1, h2, h3, h4⟩ := hw
  simp only [lstmCell, vadd, vmul, matvec]
  constructor <;>
    simp [List.length_zipWith, List.length_take, List.length_drop,
      List.length_map, h1, h2, h3, h4, hc] <;> omega

lemma length_lstmRun (sg th : ℚ → ℚ) (w : LSTMWeights) (H : Nat)
    (xs : List (List ℚ)) (h c : List ℚ) (hw : wfWeights w H)
    (hh : h.length = H) (hc : c.length = H) :
    (lstmRun sg th w H xs h c).1.length = H ∧
      (lstmRun sg th w H xs h c).2.length = H := by
  induction xs generalizing h c with
  | nil => exact ⟨hh, hc⟩
  | cons x xs ih =>
    have hcell := length_lstm_state sg th w H x h c hw hc
    simpa [lstmRun, List.foldl_cons] using ih _ _ hcell.1 hcell.2

lemma getD_replicate_lt {α : Type} (n i : Nat) (a d : α) (h : i < n) :
    (List.replicate n a).getD i d = a := by
  simp [List.getD_eq_getElem?_getD, List.getElem?_replicate, h]

lemma pad_op_eq_append (W dim : Nat) (m : List (List ℚ)) :
    pad_op W dim m =
      List.replicate (pad_size W) (List.replicate dim 0) ++ m ++
        List.replicate (pad_size W) (List.replicate dim 0) := by
  simp [pad_op, zeroPad2dOp]

/-! ## Claim theorems -/

/-- C6: the concrete sentences have lengths [2, 5, 3]; sorting descending
yields the length order [5, 3, 2]; packing yields the active-batch-size
vector [3, 3, 2, 1, 1]. -/
theorem concrete_sort_and_batch_sizes :
    ([["nice", "day"], ["I", "like", "to", "eat", "apple"],
        ["can", "a", "can"]].map List.length) = [2, 5, 3] ∧
      (torchSortDesc [2, 5, 3]).1 = [5, 3, 2] ∧
      batchSizes [5, 3, 2] 5 = [3, 3, 2, 1, 1] := by
  refine ⟨rfl, ?_, ?_⟩ <;> decide

/-- C2: with an odd window size W, equal-length convolution after symmetric
zero-padding yields output sequence length exactly L for any input of length
L ≥ 1; concretely, for the batch of three rows with max length 8 and W = 3 the
padded length is 10 and each convolution output length is 8, not 6. -/
theorem equal_length_conv_preserves_length (W L dim : Nat) (hW : W % 2 = 1)
    (hL : 1 ≤ L) (m : List (List ℚ)) (hm : m.length = L)
    (kernel : List (List ℚ)) (bias : ℚ) (e : Nat → List ℚ) :
    (conv2dValid kernel bias W (pad_op W dim m)).length = L ∧
      (∀ row ∈ ([[1, 2, 3, 4, 5, 0, 0, 0], [1, 2, 3, 4, 5, 6, 7, 8],
          [1, 2, 0, 0, 0, 0, 0, 0]] : List (List Nat)),
        (pad_op 3 10 (embedRow (mkEmbedding 10 e) row)).length = 10 ∧
          (conv2dValid kernel bias 3
              (pad_op 3 10 (embedRow (mkEmbedding 10 e) row))).length = 8) := by
  constructor
  · simp only [conv2dValid, List.length_map, List.length_range,
      pad_op, zeroPad2dOp, List.length_append, List.length_replicate,
      List.length_map, pad_size, hm]
    omega
  · intro row hrow
    fin_cases hrow <;>
      simp [conv2dValid, pad_op, zeroPad2dOp, pad_size, embedRow]

/-- C2 witness at W = 3, L = 8. -/
theorem equal_length_conv_preserves_length_witness :
    (3 % 2 = 1) ∧ (1 ≤ 8) ∧
      (conv2dValid [] 0 3
          (pad_op 3 10 (List.replicate 8 (List.replicate 10 (0 : ℚ))))).length = 8 :=
  ⟨rfl, by decide,
    (equal_length_conv_preserves_length 3 8 10 rfl (by decide) _ (by simp) [] 0
        (fun _ => [])).1⟩

/-- C5 counterexample: supplying the even window size 4 raises nothing in the
code (there is no guard at all); the procedure still produces an output, of
sequence length 7 on a row of length 8 — neither an error nor the
equal-length result. -/
theorem even_window_no_error_counterexample :
    (conv2dValid [] 0 4
        (pad_op 4 10 (List.replicate 8 (List.replicate 10 (0 : ℚ))))).length = 7 ∧
      (7 : Nat) ≠ 8 := by
  constructor
  · simp [conv2dValid, pad_op, zeroPad2dOp, pad_size]
  · decide

/-- C5 amended: the convolution notebook has no guard on the window size;
with an even W ≥ 2 the procedure silently produces a convolution output of
sequence length L - 1 instead of raising a configuration error. -/
theorem even_window_silent_shrink (W L dim : Nat) (hW : W % 2 = 0) (h2 : 2 ≤ W)
    (hL : 1 ≤ L) (m : List (List ℚ)) (hm : m.length = L)
    (kernel : List (List ℚ)) (bias : ℚ) :
    (conv2dValid kernel bias W (pad_op W dim m)).length = L - 1 := by
  simp only [conv2dValid, List.length_map, List.length_range,
    pad_op, zeroPad2dOp, List.length_append, List.length_replicate,
    pad_size, hm]
  omega

/-- C5 amended witness at W = 4, L = 8. -/
theorem even_window_silent_shrink_witness :
    (4 % 2 = 0) ∧ (2 ≤ 4) ∧ (1 ≤ 8) ∧
      (conv2dValid [] 0 4
          (pad_op 4 10 (List.replicate 8 (List.replicate 10 (0 : ℚ))))).length = 8 - 1 :=
  ⟨rfl, by decide, by decide,
    even_window_silent_shrink 4 8 10 rfl (by decide) (by decide) _ (by simp) [] 0⟩

/-- C7: the padding step zero-pads only the sequence axis, symmetrically by
(W-1)/2 rows of zeros on each side; the original rows (the embedding axis)
are left untouched. -/
theorem pad_op_pads_sequence_axis_only (W dim : Nat) (hW : W % 2 = 1)
    (m : List (List ℚ)) :
    (pad_op W dim m).length = m.length + (W - 1) ∧
      ((pad_op W dim m).drop (pad_size W)).take m.length = m ∧
      (∀ i < pad_size W,
        (pad_op W dim m).getD i [] = List.replicate dim 0 ∧
          (pad_op W dim m).getD (pad_size W + m.length + i) [] =
            List.replicate dim 0) := by
  rw [pad_op_eq_append]
  refine ⟨?_, ?_, ?_⟩
  · simp only [List.length_append, List.length_replicate, pad_size]
    omega
  · rw [List.append_assoc, List.drop_left' (by simp), List.take_left' rfl]
  · intro i hi
    constructor
    · rw [List.append_assoc, List.getD_append _ _ _ _ (by simpa using hi)]
      exact getD_replicate_lt _ _ _ _ hi
    · rw [List.append_assoc,
        List.getD_append_right _ _ _ _ (by simp; omega),
        List.length_replicate]
      have harith : pad_size W + m.length + i - pad_size W = m.length + i := by
        omega
      rw [harith, List.getD_append_right _ _ _ _ (by omega)]
      exact getD_replicate_lt _ _ _ _ (by omega)

/-- C7 witness at W = 3, a concrete 2-row matrix. -/
theorem pad_op_pads_sequence_axis_only_witness :
    (3 % 2 = 1) ∧
      ((pad_op 3 2 [[1, 2], [3, 4]]).length = 2 + (3 - 1) ∧
        ((pad_op 3 2 [[1, 2], [3, 4]]).drop (pad_size 3)).take 2 =
          [[1, 2], [3, 4]] ∧
        (∀ i < pad_size 3,
          (pad_op 3 2 [[1, 2], [3, 4]]).getD i [] = List.replicate 2 0 ∧
            (pad_op 3 2 [[1, 2], [3, 4]]).getD (pad_size 3 + 2 + i) [] =
              List.replicate 2 0)) :=
  ⟨rfl, by
    have h := pad_op_pads_sequence_axis_only 3 2 rfl [[1, 2], [3, 4]]
    simpa using h⟩

/-- C8: the padding index 0 maps to the all-zero embedding vector, so every
padding position of a padded row embeds to the zero vector. -/
theorem padding_index_embeds_zero (dim : Nat) (w : Nat → List ℚ)
    (ids : List Nat) (maxLen t : Nat) (ht : ids.length ≤ t) :
    mkEmbedding dim w 0 = List.replicate dim 0 ∧
      mkEmbedding dim w ((padRow ids maxLen).getD t 0) =
        List.replicate dim 0 := by
  have h0 : mkEmbedding dim w 0 = List.replicate dim 0 := by simp [mkEmbedding]
  refine ⟨h0, ?_⟩
  have hpad : (padRow ids maxLen).getD t 0 = 0 := by
    unfold padRow
    rw [List.getD_append_right _ _ _ _ ht]
    rcases Nat.lt_or_ge (t - ids.length) (maxLen - ids.length) with h | h
    · exact getD_replicate_lt _ _ _ _ h
    · refine List.getD_eq_default _ _ ?_
      simpa using h
  rw [hpad]
  exact h0

/-- C8 witness: row [3, 4, 3] padded to length 5, position 3 is padding. -/
theorem padding_index_embeds_zero_witness :
    ([3, 4, 3] : List Nat).length ≤ 3 ∧
      (mkEmbedding 2 (fun i => [(i : ℚ), (i : ℚ)]) 0 = List.replicate 2 0 ∧
        mkEmbedding 2 (fun i => [(i : ℚ), (i : ℚ)])
            ((padRow [3, 4, 3] 5).getD 3 0) = List.replicate 2 0) :=
  ⟨by decide, padding_index_embeds_zero 2 _ [3, 4, 3] 5 3 (by decide)⟩

/-- C1: if a row's token content reads the same forward and backward and the
forward and backward parameter sets are equal, the forward-final and
backward-final hidden states coincide exactly (the backward pass consumes no
padding positions). -/
theorem blstm_palindrome_fwd_bwd_equal (sg th : ℚ → ℚ) (wf wb : LSTMWeights)
    (H dim : Nat) (e : Nat → List ℚ) (tokens : List Nat) (len : Nat)
    (hpal : (tokens.take len).reverse = tokens.take len) (hw : wf = wb) :
    packedFwdFinal sg th wf H (embedRow (mkEmbedding dim e) tokens) len =
      packedBwdFinal sg th wb H (embedRow (mkEmbedding dim e) tokens) len := by
  subst hw
  unfold packedFwdFinal packedBwdFinal embedRow
  rw [← List.map_take, ← List.map_reverse, hpal]

/-- C1 witness: the palindromic row [3, 4, 3] (the token ids of
['can', 'a', 'can']) with equal forward/backward weights. -/
theorem blstm_palindrome_fwd_bwd_equal_witness :
    (([3, 4, 3] : List Nat).take 3).reverse = ([3, 4, 3] : List Nat).take 3 ∧
      packedFwdFinal (fun q => q) (fun q => q)
          ⟨[[1], [1], [1], [1]], [[1], [1], [1], [1]], [1, 1, 1, 1], [1, 1, 1, 1]⟩
          1 (embedRow (mkEmbedding 1 (fun i => [(i : ℚ)])) [3, 4, 3]) 3 =
        packedBwdFinal (fun q => q) (fun q => q)
          ⟨[[1], [1], [1], [1]], [[1], [1], [1], [1]], [1, 1, 1, 1], [1, 1, 1, 1]⟩
          1 (embedRow (mkEmbedding 1 (fun i => [(i : ℚ)])) [3, 4, 3]) 3 :=
  ⟨rfl, blstm_palindrome_fwd_bwd_equal _ _ _ _ 1 1 _ [3, 4, 3] 3 rfl rfl⟩

/-! ## Vocabulary lemmas (for C9) -/

lemma lookup_append_or (l1 l2 : List (String × Nat)) (w : String) :
    (l1 ++ l2).lookup w = ((l1.lookup w).or (l2.lookup w)) := by
  induction l1 with
  | nil => simp
  | cons p rest ih =>
    obtain ⟨k, v⟩ := p
    by_cases h : w = k
    · subst h; simp [List.lookup]
    · have hb : (w == k) = false := beq_eq_false_iff_ne.mpr h
      simp [List.lookup, hb, ih]

lemma lookup_eq_none_of_absent (a : List (String × Nat)) (w : String)
    (h : ∀ p ∈ a, p.1 ≠ w) : a.lookup w = none := by
  induction a with
  | nil => rfl
  | cons p rest ih =>
    obtain ⟨k, v⟩ := p
    have hk : k ≠ w := h (k, v) (by simp)
    have hb : (w == k) = false := beq_eq_false_iff_ne.mpr (fun e => hk e.symm)
    simp only [List.lookup, hb]
    exact ih (fun q hq => h q (by simp [hq]))

lemma isSome_lookup_addWord (a : List (String × Nat)) (u w : String)
    (h : (a.lookup w).isSome) : ((addWord a u).lookup w).isSome := by
  unfold addWord
  split
  · exact h
  · rw [lookup_append_or]
    cases hcase : a.lookup w with
    | none => rw [hcase] at h; simp at h
    | some v => simp [hcase]

lemma isSome_lookup_addWord_self (a : List (String × Nat)) (u : String) :
    ((addWord a u).lookup u).isSome := by
  unfold addWord
  split
  · assumption
  · rw [lookup_append_or]
    cases hcase : a.lookup u with
    | none => simp [List.lookup]
    | some v => simp [hcase]

lemma isSome_lookup_foldl_addWord (ws : List String) (a : List (String × Nat))
    (w : String) (h : (a.lookup w).isSome) :
    ((ws.foldl addWord a).lookup w).isSome := by
  induction ws generalizing a with
  | nil => exact h
  | cons u us ih => exact ih _ (isSome_lookup_addWord a u w h)

lemma isSome_lookup_foldl_addWord_mem (ws : List String)
    (a : List (String × Nat)) (w : String) (h : w ∈ ws) :
    ((ws.foldl addWord a).lookup w).isSome := by
  induction ws generalizing a with
  | nil => cases h
  | cons u us ih =>
    rcases List.mem_cons.mp h with rfl | hmem
    · exact isSome_lookup_foldl_addWord us _ w (isSome_lookup_addWord_self a w)
    · exact ih _ hmem

lemma isSome_lookup_sentence_fold (ss : List (List String))
    (a : List (String × Nat)) (w : String) (h : (a.lookup w).isSome) :
    ((ss.foldl (fun acc s => s.foldl addWord acc) a).lookup w).isSome := by
  induction ss generalizing a with
  | nil => exact h
  | cons s rest ih => exact ih _ (isSome_lookup_foldl_addWord s a w h)

lemma isSome_lookup_sentence_fold_mem (w : String) (s : List String)
    (hw : w ∈ s) :
    ∀ (ss : List (List String)) (a : List (String × Nat)), s ∈ ss →
      ((ss.foldl (fun acc t => t.foldl addWord acc) a).lookup w).isSome := by
  intro ss
  induction ss with
  | nil => intro a hs; cases hs
  | cons s0 rest ih =>
    intro a hs
    simp only [List.foldl_cons]
    rcases List.mem_cons.mp hs with rfl | hmem
    · exact isSome_lookup_sentence_fold rest _ w
        (isSome_lookup_foldl_addWord_mem s a w hw)
    · exact ih _ hmem

/-- C9: looking up a token absent from the vocabulary yields `none` (Python's
KeyError, no fallback index); and when the vocabulary is built from the same
sentences, every token of those sentences is found, so the error branch is
unreachable. -/
theorem vocabulary_miss_fails_fast (a : List (String × Nat)) (w1 w2 : String)
    (sentences : List (List String)) (s : List String)
    (habs : ∀ p ∈ a, p.1 ≠ w1) (hs : s ∈ sentences) (hw : w2 ∈ s) :
    lookupToken a w1 = none ∧
      (lookupToken (buildAlphabet sentences) w2).isSome = true := by
  refine ⟨lookup_eq_none_of_absent a w1 habs, ?_⟩
  unfold lookupToken buildAlphabet
  exact isSome_lookup_sentence_fold_mem w2 s hw sentences [] hs

/-- C9 witness: 'xyz' is absent from a one-word vocabulary; 'a' occurs in the
sentence ['can', 'a', 'can'] and is found in the alphabet built from it. -/
theorem vocabulary_miss_fails_fast_witness :
    (∀ p ∈ ([("nice", 1)] : List (String × Nat)), p.1 ≠ "xyz") ∧
      (["can", "a", "can"] ∈ [["can", "a", "can"]] ∧ "a" ∈ ["can", "a", "can"]) ∧
      (lookupToken [("nice", 1)] "xyz" = none ∧
        (lookupToken (buildAlphabet [["can", "a", "can"]]) "a").isSome = true) :=
  ⟨by decide, ⟨by simp, by simp⟩,
    vocabulary_miss_fails_fast [("nice", 1)] "xyz" "a" [["can", "a", "can"]]
      ["can", "a", "can"] (by decide) (by simp) (by simp)⟩

/-! ## Active-batch-size lemmas (for C3) -/

lemma takeWhile_length_eq_countP (t : Nat) (lengths : List Nat)
    (hsort : List.Sorted (fun a b => b ≤ a) lengths) :
    (lengths.takeWhile (fun l => t < l)).length =
      lengths.countP (fun l => decide (t < l)) := by
  induction lengths with
  | nil => rfl
  | cons a as ih =>
    obtain ⟨hall, hsort2⟩ := List.sorted_cons.mp hsort
    by_cases h : t < a
    · simp [List.takeWhile_cons, List.countP_cons, h, ih hsort2]
    · have hzero : as.countP (fun l => decide (t < l)) = 0 := by
        rw [List.countP_eq_zero]
        intro x hx
        simp only [decide_eq_true_eq]
        exact fun hlt => h (lt_of_lt_of_le hlt (hall x hx))
      simp [List.takeWhile_cons, List.countP_cons, h, hzero]

lemma takeWhile_length_mono (p q : Nat → Bool) (l : List Nat)
    (himp : ∀ x, q x = true → p x = true) :
    (l.takeWhile q).length ≤ (l.takeWhile p).length := by
  induction l with
  | nil => exact Nat.le_refl 0
  | cons a as ih =>
    by_cases h : q a = true
    · simp [List.takeWhile_cons, h, himp a h, ih]
    · simp [List.takeWhile_cons, h]

lemma sum_map_add_nat (l : List Nat) (f g : Nat → Nat) :
    (l.map (fun x => f x + g x)).sum = (l.map f).sum + (l.map g).sum := by
  induction l with
  | nil => rfl
  | cons a as ih => simp only [List.map_cons, List.sum_cons, ih]; omega

lemma sum_indicator_range (a n : Nat) :
    ((List.range n).map (fun t => if t < a then 1 else 0)).sum = min a n := by
  induction n with
  | zero => simp
  | succ n ih =>
    rw [List.range_succ, List.map_append, List.sum_append, ih]
    by_cases h : n < a <;> simp [h] <;> omega

lemma countP_range_sum (lengths : List Nat) (maxLen : Nat)
    (hb : ∀ l ∈ lengths, l ≤ maxLen) :
    ((List.range maxLen).map
        (fun t => lengths.countP (fun l => decide (t < l)))).sum =
      lengths.sum := by
  induction lengths with
  | nil => simp
  | cons a as ih =>
    have hb2 : ∀ l ∈ as, l ≤ maxLen := fun l hl => hb l (by simp [hl])
    have ha : a ≤ maxLen := hb a (by simp)
    have hsplit :
        (List.range maxLen).map
            (fun t => (a :: as).countP (fun l => decide (t < l))) =
          (List.range maxLen).map
            (fun t => as.countP (fun l => decide (t < l)) +
              if t < a then 1 else 0) := by
      refine List.map_congr_left (fun t _ => ?_)
      by_cases h : t < a <;> simp [List.countP_cons, h]
    rw [hsplit, sum_map_add_nat, ih hb2, sum_indicator_range]
    simp only [List.sum_cons]
    omega

/-- C3: the active-batch-size vector of packing: entry t counts the rows with
true length greater than t; the vector is non-increasing; and it sums to the
total number of real tokens in the batch. -/
theorem batch_sizes_invariants (lengths : List Nat) (maxLen : Nat)
    (hsort : List.Sorted (fun a b => b ≤ a) lengths)
    (hb : ∀ l ∈ lengths, l ≤ maxLen) :
    (∀ t < maxLen, (batchSizes lengths maxLen).getD t 0 =
        lengths.countP (fun l => decide (t < l))) ∧
      (∀ t, (batchSizes lengths maxLen).getD (t + 1) 0 ≤
        (batchSizes lengths maxLen).getD t 0) ∧
      (batchSizes lengths maxLen).sum = lengths.sum := by
  have hval : ∀ t, t < maxLen → (batchSizes lengths maxLen).getD t 0 =
      (lengths.takeWhile (fun l => t < l)).length := by
    intro t ht
    unfold batchSizes
    rw [getD_map_lt _ _ _ (by simpa using ht)]
    rw [List.getElem_range]
  refine ⟨?_, ?_, ?_⟩
  · intro t ht
    rw [hval t ht]
    exact takeWhile_length_eq_countP t lengths hsort
  · intro t
    by_cases h1 : t + 1 < maxLen
    · have h0 : t < maxLen := by omega
      rw [hval _ h1, hval _ h0]
      exact takeWhile_length_mono _ _ lengths (fun x hx => by
        simp only [decide_eq_true_eq] at hx ⊢
        omega)
    · have : (batchSizes lengths maxLen).getD (t + 1) 0 = 0 := by
        refine List.getD_eq_default _ _ ?_
        unfold batchSizes
        simp only [List.length_map, List.length_range]
        omega
      rw [this]
      exact Nat.zero_le _
  · unfold batchSizes
    have : (List.range maxLen).map
        (fun t => (lengths.takeWhile (fun l => t < l)).length) =
      (List.range maxLen).map
        (fun t => lengths.countP (fun l => decide (t < l))) := by
      refine List.map_congr_left (fun t _ => ?_)
      exact takeWhile_length_eq_countP t lengths hsort
    rw [this]
    exact countP_range_sum lengths maxLen hb

/-- C3 witness at the concrete sorted lengths [5, 3, 2] with maxLen 5. -/
theorem batch_sizes_invariants_witness :
    List.Sorted (fun a b => b ≤ a) [5, 3, 2] ∧
      (∀ l ∈ ([5, 3, 2] : List Nat), l ≤ 5) ∧
      ((∀ t < 5, (batchSizes [5, 3, 2] 5).getD t 0 =
          List.countP (fun l => decide (t < l)) [5, 3, 2]) ∧
        (∀ t, (batchSizes [5, 3, 2] 5).getD (t + 1) 0 ≤
          (batchSizes [5, 3, 2] 5).getD t 0) ∧
        (batchSizes [5, 3, 2] 5).sum = List.sum [5, 3, 2]) :=
  ⟨by decide, by decide,
    batch_sizes_invariants [5, 3, 2] 5 (by decide) (by decide)⟩

lemma getD_map_range_append {α : Type} (f : Nat → α) (n j : Nat)
    (tail : List α) (h : j < n) (d : α) :
    ((((List.range n).map f) ++ tail)).getD j d = f j := by
  rw [List.getD_append _ _ _ _ (by simpa using h)]
  rw [getD_map_lt _ _ _ (by simpa using h)]
  rw [List.getElem_range]

/-- C10: the final hidden states returned by the recurrent layer equal the
values extracted from the unpacked per-timestep output: the forward final
state is the first H components at the row's last real timestep, the backward
final state is the last H components at timestep 0. -/
theorem final_hidden_matches_output_extraction (sg th : ℚ → ℚ)
    (wf wb : LSTMWeights) (H : Nat) (xs : List (List ℚ)) (len maxLen : Nat)
    (hw : wfWeights wf H) (h1 : 1 ≤ len) :
    ((packedOutputRow sg th wf wb H xs len maxLen).getD (len - 1) []).take H =
        packedFwdFinal sg th wf H xs len ∧
      ((packedOutputRow sg th wf wb H xs len maxLen).getD 0 []).drop H =
        packedBwdFinal sg th wb H xs len := by
  have hzs : (zeroState H).length = H := by simp [zeroState]
  have hfwdlen : ∀ ys : List (List ℚ),
      (lstmRun sg th wf H ys (zeroState H) (zeroState H)).1.length = H :=
    fun ys => (length_lstmRun sg th wf H ys _ _ hw hzs hzs).1
  constructor
  · unfold packedOutputRow
    rw [getD_map_range_append _ _ _ _ (by omega)]
    have hlen : len - 1 + 1 = len := by omega
    rw [hlen, List.take_left' (hfwdlen _)]
    rfl
  · unfold packedOutputRow
    rw [getD_map_range_append _ _ _ _ (by omega)]
    rw [List.drop_left' (hfwdlen _), List.drop_zero]
    rfl

/-- C10 witness: a concrete two-timestep row with H = 1. -/
theorem final_hidden_matches_output_extraction_witness :
    wfWeights
        ⟨[[1], [1], [1], [1]], [[1], [1], [1], [1]], [1, 1, 1, 1], [1, 1, 1, 1]⟩
        1 ∧
      (1 : Nat) ≤ 2 ∧
      (((packedOutputRow (fun q => q) (fun q => q)
              ⟨[[1], [1], [1], [1]], [[1], [1], [1], [1]], [1, 1, 1, 1],
                [1, 1, 1, 1]⟩
              ⟨[[2], [2], [2], [2]], [[2], [2], [2], [2]], [2, 2, 2, 2],
                [2, 2, 2, 2]⟩
              1 [[1], [2]] 2 2).getD (2 - 1) []).take 1 =
          packedFwdFinal (fun q => q) (fun q => q)
            ⟨[[1], [1], [1], [1]], [[1], [1], [1], [1]], [1, 1, 1, 1],
              [1, 1, 1, 1]⟩ 1 [[1], [2]] 2 ∧
        ((packedOutputRow (fun q => q) (fun q => q)
              ⟨[[1], [1], [1], [1]], [[1], [1], [1], [1]], [1, 1, 1, 1],
                [1, 1, 1, 1]⟩
              ⟨[[2], [2], [2], [2]], [[2], [2], [2], [2]], [2, 2, 2, 2],
                [2, 2, 2, 2]⟩
              1 [[1], [2]] 2 2).getD 0 []).drop 1 =
          packedBwdFinal (fun q => q) (fun q => q)
            ⟨[[2], [2], [2], [2]], [[2], [2], [2], [2]], [2, 2, 2, 2],
              [2, 2, 2, 2]⟩ 1 [[1], [2]] 2) :=
  ⟨by decide, by decide,
    final_hidden_matches_output_extraction (fun q => q) (fun q => q) _ _ 1
      [[1], [2]] 2 2 (by decide) (by decide)⟩

/-! ## Sorting and permutation lemmas (for C4) -/

instance : IsTotal (Nat × Nat) (fun a b => b.2 ≤ a.2) :=
  ⟨fun a b => Nat.le_total b.2 a.2⟩

instance : IsTrans (Nat × Nat) (fun a b => b.2 ≤ a.2) :=
  ⟨fun _ _ _ hab hbc => le_trans hbc hab⟩

instance : IsTotal (Nat × Nat) (fun a b => a.2 ≤ b.2) :=
  ⟨fun a b => Nat.le_total a.2 b.2⟩

instance : IsTrans (Nat × Nat) (fun a b => a.2 ≤ b.2) :=
  ⟨fun _ _ _ hab hbc => le_trans hab hbc⟩

lemma sortPairsDesc_perm (l : List (Nat × Nat)) :
    List.Perm (sortPairsDesc l) l :=
  List.perm_insertionSort _ l

lemma sortPairsDesc_sorted (l : List (Nat × Nat)) :
    List.Sorted (fun a b => b.2 ≤ a.2) (sortPairsDesc l) :=
  List.sorted_insertionSort _ l

lemma mem_enum_getD (l : List Nat) (p : Nat × Nat) (h : p ∈ l.enum) :
    p.1 < l.length ∧ l.getD p.1 0 = p.2 := by
  have h2 := List.mem_enum_iff_getElem?.mp h
  rw [List.getElem?_eq_some] at h2
  obtain ⟨hlt, hval⟩ := h2
  exact ⟨hlt, by rw [List.getD_eq_getElem l 0 hlt, hval]⟩

lemma argsortAsc_spec (p : List Nat) (n : Nat) (hp : List.Perm p (List.range n)) :
    (argsortAsc p).length = n ∧
      ∀ j, j < n → (argsortAsc p).getD j 0 < n ∧
        p.getD ((argsortAsc p).getD j 0) 0 = j := by
  have hplen : p.length = n := by simpa using hp.length_eq
  have hqperm : List.Perm (List.insertionSort (fun a b => a.2 ≤ b.2) p.enum) p.enum :=
    List.perm_insertionSort _ _
  have hqsorted : List.Sorted (fun a b : Nat × Nat => a.2 ≤ b.2)
      (List.insertionSort (fun a b => a.2 ≤ b.2) p.enum) :=
    List.sorted_insertionSort _ _
  set q := List.insertionSort (fun a b => a.2 ≤ b.2) p.enum with hq
  have hqlen : q.length = n := by
    rw [hqperm.length_eq, List.enum_length, hplen]
  have hsnd_sorted : List.Sorted (fun a b : Nat => a ≤ b) (q.map (fun x => x.2)) := by
    unfold List.Sorted at hqsorted ⊢
    exact (List.pairwise_map).mpr hqsorted
  have hsnd_perm : List.Perm (q.map (fun x => x.2)) (List.range n) := by
    refine (hqperm.map _).trans ?_
    have : p.enum.map (fun x : Nat × Nat => x.2) = p := List.enum_map_snd p
    rw [this]
    exact hp
  have hsnd_eq : q.map (fun x => x.2) = List.range n :=
    List.eq_of_perm_of_sorted hsnd_perm hsnd_sorted (List.sorted_le_range n)
  have hlen_as : (argsortAsc p).length = n := by
    unfold argsortAsc
    rw [← hq, List.length_map, hqlen]
  refine ⟨hlen_as, fun j hj => ?_⟩
  have hjq : j < q.length := by omega
  have hfst : (argsortAsc p).getD j 0 = (q[j]).1 := by
    unfold argsortAsc
    rw [← hq, getD_map_lt _ _ _ hjq]
  have hsndj : (q[j]).2 = j := by
    have h1 : (q.map (fun x => x.2)).getD j 0 = (q[j]).2 :=
      getD_map_lt _ _ _ hjq 0
    have h2 : (q.map (fun x => x.2)).getD j 0 = (List.range n).getD j 0 := by
      rw [hsnd_eq]
    have h3 : (List.range n).getD j 0 = j := by
      rw [List.getD_eq_getElem _ _ (by simpa using hj)]
      exact List.getElem_range _ _
    rw [← h1, h2, h3]
  have hmem : q[j] ∈ p.enum := hqperm.mem_iff.mp (List.getElem_mem hjq)
  obtain ⟨hlt, hval⟩ := mem_enum_getD p _ hmem
  constructor
  · rw [hfst]; omega
  · rw [hfst, hval, hsndj]

lemma takeWhile_getD_of_all {β : Type} (q : β → Bool) (l : List β) (k : Nat)
    (d : β) (hk : k < l.length)
    (hall : ∀ m, m ≤ k → q (l.getD m d) = true) :
    k < (l.takeWhile q).length ∧ (l.takeWhile q).getD k d = l.getD k d := by
  induction l generalizing k with
  | nil => simp at hk
  | cons b bs ih =>
    have hqb : q b = true := by simpa using hall 0 (Nat.zero_le k)
    cases k with
    | zero => simp [List.takeWhile_cons, hqb]
    | succ k =>
      have hk2 : k < bs.length := by simpa using hk
      have hall2 : ∀ m, m ≤ k → q (bs.getD m d) = true := fun m hm => by
        simpa using hall (m + 1) (by omega)
      obtain ⟨h1, h2⟩ := ih k hk2 hall2
      refine ⟨?_, ?_⟩
      · simp only [List.takeWhile_cons, hqb, if_true, List.length_cons]
        omega
      · simp only [List.takeWhile_cons, hqb, if_true, List.getD_cons_succ]
        exact h2

lemma getD_zip_lt {α β : Type} (xs : List α) (ys : List β) (k : Nat)
    (hx : k < xs.length) (hy : k < ys.length) (da : α) (db : β) :
    (xs.zip ys).getD k (da, db) = (xs.getD k da, ys.getD k db) := by
  have hz : k < (xs.zip ys).length := by
    rw [List.length_zip]; omega
  rw [List.getD_eq_getElem _ _ hz, List.getD_eq_getElem _ _ hx,
    List.getD_eq_getElem _ _ hy]
  exact List.getElem_zip ..

lemma sorted_desc_getD_le (sl : List Nat)
    (hsort : List.Sorted (fun a b => b ≤ a) sl) (m k : Nat)
    (hmk : m ≤ k) (hk : k < sl.length) :
    sl.getD k 0 ≤ sl.getD m 0 := by
  rcases Nat.eq_or_lt_of_le hmk with rfl | hlt
  · exact Nat.le_refl _
  · have hm : m < sl.length := by omega
    rw [List.getD_eq_getElem _ _ hk, List.getD_eq_getElem _ _ hm]
    exact (List.pairwise_iff_getElem.mp hsort) m k hm hk hlt

lemma unpack_pack_sorted {α : Type} (rows : List (List α)) (sl : List Nat)
    (maxLen : Nat) (d : α) (hlen : rows.length = sl.length)
    (hsort : List.Sorted (fun a b => b ≤ a) sl) (k t : Nat)
    (hk : k < rows.length) (ht : t < sl.getD k 0)
    (htm : sl.getD k 0 ≤ maxLen) :
    ((packGroups rows sl maxLen d).getD t []).getD k d =
      (rows.getD k []).getD t d := by
  have htmax : t < maxLen := by omega
  have hgroup : (packGroups rows sl maxLen d).getD t [] =
      ((rows.zip sl).takeWhile (fun p => t < p.2)).map (fun p => p.1.getD t d) := by
    unfold packGroups
    rw [getD_map_lt _ _ _ (by simpa using htmax)]
    rw [List.getElem_range]
  rw [hgroup]
  have hkz : k < (rows.zip sl).length := by
    rw [List.length_zip]; omega
  have hall : ∀ m, m ≤ k →
      (fun p : List α × Nat => decide (t < p.2)) ((rows.zip sl).getD m ([], 0)) =
        true := by
    intro m hm
    have hmrows : m < rows.length := by omega
    have hmsl : m < sl.length := by omega
    rw [getD_zip_lt rows sl m hmrows hmsl [] 0]
    simp only [decide_eq_true_eq]
    have := sorted_desc_getD_le sl hsort m k hm (by omega)
    omega
  obtain ⟨htw, htweq⟩ :=
    takeWhile_getD_of_all (fun p : List α × Nat => decide (t < p.2))
      (rows.zip sl) k ([], 0) hkz hall
  rw [getD_map_lt _ _ _ htw]
  have hgetelem :
      ((rows.zip sl).takeWhile (fun p : List α × Nat => decide (t < p.2)))[k] =
        (rows.getD k [], sl.getD k 0) := by
    rw [← List.getD_eq_getElem _ ([], 0) htw, htweq]
    exact getD_zip_lt rows sl k hk (by omega) [] 0
  rw [hgetelem]

lemma sortDesc_len (lengths : List Nat) :
    (sortPairsDesc lengths.enum).length = lengths.length := by
  rw [(sortPairsDesc_perm _).length_eq, List.enum_length]

lemma sortDesc_P_perm (lengths : List Nat) :
    List.Perm ((torchSortDesc lengths).2) (List.range lengths.length) := by
  unfold torchSortDesc
  refine ((sortPairsDesc_perm _).map _).trans ?_
  have h : (lengths.enum.map fun p : Nat × Nat => p.1) = List.range lengths.length := by
    simp
  rw [h]

lemma sortDesc_sl_sorted (lengths : List Nat) :
    List.Sorted (fun a b : Nat => b ≤ a) ((torchSortDesc lengths).1) := by
  unfold torchSortDesc
  have h := sortPairsDesc_sorted lengths.enum
  unfold List.Sorted at h ⊢
  exact (List.pairwise_map).mpr h

lemma sortDesc_sl_len (lengths : List Nat) :
    (torchSortDesc lengths).1.length = lengths.length := by
  unfold torchSortDesc
  simp [sortDesc_len]

lemma sortDesc_pair (lengths : List Nat) (k : Nat) (hk : k < lengths.length) :
    (torchSortDesc lengths).2.getD k 0 < lengths.length ∧
      lengths.getD ((torchSortDesc lengths).2.getD k 0) 0 =
        (torchSortDesc lengths).1.getD k 0 := by
  have hks : k < (sortPairsDesc lengths.enum).length := by
    rw [sortDesc_len]; omega
  have hfst : (torchSortDesc lengths).2.getD k 0 =
      ((sortPairsDesc lengths.enum)[k]).1 := by
    unfold torchSortDesc
    rw [getD_map_lt _ _ _ hks]
  have hsnd : (torchSortDesc lengths).1.getD k 0 =
      ((sortPairsDesc lengths.enum)[k]).2 := by
    unfold torchSortDesc
    rw [getD_map_lt _ _ _ hks]
  have hmem : (sortPairsDesc lengths.enum)[k] ∈ lengths.enum :=
    (sortPairsDesc_perm _).mem_iff.mp (List.getElem_mem hks)
  obtain ⟨h1, h2⟩ := mem_enum_getD lengths _ hmem
  refine ⟨by rw [hfst]; exact h1, ?_⟩
  rw [hfst, hsnd, h2]

/-- `pack_padded_sequence` then `pad_packed_sequence` then un-sorting with the
inverse permutation, exactly as chained in the BLSTM notebook. -/
def packUnpackRecover {α : Type} (rows : List (List α)) (lengths : List Nat)
    (maxLen : Nat) (d : α) : List (List α) :=
  gather
    (unpackBatch
      (packGroups (gather rows (torchSortDesc lengths).2 [])
        (torchSortDesc lengths).1 maxLen d)
      rows.length maxLen d)
    (argsortAsc (torchSortDesc lengths).2) []

/-- C4: sorting by descending true length, packing, unpacking and applying
the inverse permutation restores each row's true-length prefix in original
batch order. -/
theorem pack_unpack_round_trip {α : Type} (rows : List (List α))
    (lengths : List Nat) (maxLen : Nat) (d : α)
    (hn : rows.length = lengths.length)
    (hmax : ∀ l ∈ lengths, l ≤ maxLen)
    (hrowlen : ∀ i, i < lengths.length →
      lengths.getD i 0 ≤ (rows.getD i []).length)
    (j : Nat) (hj : j < rows.length) :
    ((packUnpackRecover rows lengths maxLen d).getD j []).take
        (lengths.getD j 0) =
      (rows.getD j []).take (lengths.getD j 0) := by
  have hjn : j < lengths.length := by omega
  have hPperm : List.Perm ((torchSortDesc lengths).2)
      (List.range lengths.length) := sortDesc_P_perm lengths
  have hPlen : (torchSortDesc lengths).2.length = lengths.length := by
    simpa using hPperm.length_eq
  have hsllen : (torchSortDesc lengths).1.length = lengths.length :=
    sortDesc_sl_len lengths
  obtain ⟨halen, haspec⟩ := argsortAsc_spec _ _ hPperm
  obtain ⟨hkn, hPk⟩ := haspec j hjn
  set P := (torchSortDesc lengths).2 with hPdef
  set sl := (torchSortDesc lengths).1 with hsldef
  set k := (argsortAsc P).getD j 0 with hkdef
  have hsrlen : (gather rows P []).length = lengths.length := by
    unfold gather
    rw [List.length_map, hPlen]
  obtain ⟨hh1, hh2⟩ := sortDesc_pair lengths k hkn
  have hA : sl.getD k 0 = lengths.getD j 0 := by
    rw [← hsldef] at hh2
    rw [← hh2, ← hPdef, hPk]
  have hB : (gather rows P []).getD k [] = rows.getD j [] := by
    unfold gather
    rw [getD_map_lt _ _ _ (by omega : k < P.length)]
    rw [← List.getD_eq_getElem P 0 (by omega), hPk]
  have hlenmax : lengths.getD j 0 ≤ maxLen := by
    refine hmax _ ?_
    rw [List.getD_eq_getElem _ _ hjn]
    exact List.getElem_mem hjn
  have hlenrow : lengths.getD j 0 ≤ (rows.getD j []).length := hrowlen j hjn
  have hrec : (packUnpackRecover rows lengths maxLen d).getD j [] =
      (List.range maxLen).map (fun t =>
        ((packGroups (gather rows P []) sl maxLen d).getD t []).getD k d) := by
    unfold packUnpackRecover gather
    rw [getD_map_lt _ _ _ (by omega : j < (argsortAsc P).length)]
    rw [← List.getD_eq_getElem (argsortAsc P) 0 (by omega), ← hkdef]
    unfold unpackBatch
    rw [getD_map_lt _ _ _
      (by simpa using (by omega : k < rows.length))]
    rw [List.getElem_range]
  rw [hrec]
  refine List.ext_getElem ?_ ?_
  · simp only [List.length_take, List.length_map, List.length_range]
    omega
  · intro i h1 h2
    have hi : i < lengths.getD j 0 := by
      simp only [List.length_take, List.length_map, List.length_range] at h1
      omega
    have hlhs :
        (((List.range maxLen).map (fun t =>
            ((packGroups (gather rows P []) sl maxLen d).getD t []).getD k d)).take
          (lengths.getD j 0))[i] =
          ((packGroups (gather rows P []) sl maxLen d).getD i []).getD k d := by
      rw [List.getElem_take]
      rw [List.getElem_map]
      rw [List.getElem_range]
    rw [hlhs]
    have hrhs : ((rows.getD j []).take (lengths.getD j 0))[i] =
        (rows.getD j []).getD i d := by
      rw [List.getElem_take]
      rw [List.getD_eq_getElem _ _ (by omega : i < (rows.getD j []).length)]
    rw [hrhs]
    rw [unpack_pack_sorted (gather rows P []) sl maxLen d
      (by rw [hsrlen, hsllen]) (sortDesc_sl_sorted lengths) k i
      (by omega) (by omega) (by omega)]
    rw [hB]

/-- C4 witness: a concrete three-row ragged batch round-trips. -/
theorem pack_unpack_round_trip_witness :
    (∀ l ∈ ([2, 3, 1] : List Nat), l ≤ 3) ∧
      (∀ i, i < ([2, 3, 1] : List Nat).length →
        ([2, 3, 1] : List Nat).getD i 0 ≤
          (([[10, 20], [1, 2, 3], [7]] : List (List Nat)).getD i []).length) ∧
      ((packUnpackRecover [[10, 20], [1, 2, 3], [7]] [2, 3, 1] 3 0).getD 0
            []).take (([2, 3, 1] : List Nat).getD 0 0) =
        (([[10, 20], [1, 2, 3], [7]] : List (List Nat)).getD 0 []).take
          (([2, 3, 1] : List Nat).getD 0 0) :=
  ⟨by decide, by decide,
    pack_unpack_round_trip [[10, 20], [1, 2, 3], [7]] [2, 3, 1] 3 0 rfl
      (by decide) (by decide) 0 (by decide)⟩

end PytorchNotes
